import Mathlib

set_option maxRecDepth 10000

/-!
Verification of the mandatory-tags checker (cmd/mandatory-tags/main.go).

The program scans a Terraform file for blocks introduced by an occurrence of
the pattern provider \s+ "aws", extracts each block by brace counting,
extracts the interior of the nested default_tags/tags map with a regular
expression, extracts tag keys with a line-anchored regular expression, and
compares them with a fixed list of eight required tags.

Strings are modelled as lists of characters (the Go code iterates by decoded
rune, and the byte slices it takes always end on an ASCII character, so the
character level is faithful).  The three regular expressions of the source
are deterministic on every input (each greedy sub-pattern is followed by a
pattern element that can never match a character the sub-pattern accepts),
so each one is embedded as a direct functional matcher; the FindAll variants
are embedded as scans that restart after the end of a successful match and
advance one character after a failed one, exactly as leftmost matching does.
Recursive scans whose recursion is along suffixes carry a fuel argument
equal to the input length plus one; every recursive step consumes at least
one character, so this fuel is never exhausted.
-/

/-- The Go character class \s of the regexp package: [\t\n\f\r ]. -/
def isSpaceGo (c : Char) : Bool :=
  c = ' ' || c = '\t' || c = '\n' || c = '\r' || c = '\x0C'

/-- The character class [a-zA-Z] of tagPattern. -/
def isTagAlpha (c : Char) : Bool :=
  ('a' ≤ c && c ≤ 'z') || ('A' ≤ c && c ≤ 'Z')

/-- The character class [a-zA-Z0-9_-] of tagPattern. -/
def isTagIdent (c : Char) : Bool :=
  isTagAlpha c || ('0' ≤ c && c ≤ '9') || c = '_' || c = '-'

/-- Match a literal character sequence at the start of the input, returning
the remainder on success. -/
def matchLit : List Char → List Char → Option (List Char)
  | [], s => some s
  | _ :: _, [] => none
  | p :: ps, c :: cs => if c = p then matchLit ps cs else none

/-- The optional quote of tagPattern: one double quote is consumed when
present. -/
def stripQuote : List Char → List Char
  | [] => []
  | c :: r => if c = '"' then r else c :: r

/-- The part of tagPattern after the anchor and the leading whitespace:
"?([a-zA-Z][a-zA-Z0-9_-]*)"?\s*= .  Returns the capture group together with
the remainder of the input after the equals sign. -/
def matchAfterWs (s : List Char) : Option (List Char × List Char) :=
  match stripQuote s with
  | [] => none
  | c :: r =>
    if isTagAlpha c then
      match (stripQuote (r.dropWhile isTagIdent)).dropWhile isSpaceGo with
      | [] => none
      | c2 :: t =>
        if c2 = '=' then some (c :: r.takeWhile isTagIdent, t) else none
    else none

/-- One attempted match of tagPattern, (?m)^\s*"?([a-zA-Z][a-zA-Z0-9_-]*)"?\s*= ,
at a position where the anchor ^ holds. -/
def matchTagAt (s : List Char) : Option (List Char × List Char) :=
  matchAfterWs (s.dropWhile isSpaceGo)

/-- Advance to the position just after the next newline: the next position at
which the multi-line anchor ^ can hold. -/
def nextLine : List Char → Option (List Char)
  | [] => none
  | c :: r => if c = '\n' then some r else nextLine r

/-- Fueled scan of FindAllStringSubmatch for tagPattern.  Matches can start
only where ^ holds: at the start of the text and just after each newline.
After a successful match the scan restarts at the end of the match; the
characters between the end of a match (an equals sign, never a newline) and
the next newline contain no anchor position, so the scan moves to the next
line in both cases. -/
def findAllTagsF : Nat → List Char → List (List Char)
  | 0, _ => []
  | fuel + 1, s =>
    match matchTagAt s with
    | some (cap, t) =>
      cap :: (match nextLine t with
              | some r => findAllTagsF fuel r
              | none => [])
    | none =>
      match nextLine s with
      | some r => findAllTagsF fuel r
      | none => []

/-- All captures of tagPattern over the input, in match order. -/
def findAllTags (s : List Char) : List (List Char) :=
  findAllTagsF (s.length + 1) s

/-- extractTags of the source: the first capture group of every match of
tagPattern over the tag block, in order. -/
def extractTags (tagBlock : List Char) : List (List Char) :=
  findAllTags tagBlock

/-- The literal default_tags of the tags regular expression. -/
def dtLit : List Char := "default_tags".toList

/-- The literal tags of the tags regular expression. -/
def tagsLit : List Char := "tags".toList

/-- One attempted match of (?s)default_tags\s*\{\s*tags\s*=\s*\{([^}]+)\}
at the current position, returning the capture group: the characters between
the inner opening brace and the first closing brace, required to be
non-empty. -/
def matchDTAt (s : List Char) : Option (List Char) :=
  match matchLit dtLit s with
  | none => none
  | some s1 =>
    match matchLit ['{'] (s1.dropWhile isSpaceGo) with
    | none => none
    | some s2 =>
      match matchLit tagsLit (s2.dropWhile isSpaceGo) with
      | none => none
      | some s3 =>
        match matchLit ['='] (s3.dropWhile isSpaceGo) with
        | none => none
        | some s4 =>
          match matchLit ['{'] (s4.dropWhile isSpaceGo) with
          | none => none
          | some s5 =>
            match s5.dropWhile (fun c => c != '}') with
            | '}' :: _ =>
              if s5.takeWhile (fun c => c != '}') = [] then none
              else some (s5.takeWhile (fun c => c != '}'))
            | _ => none

/-- FindStringSubmatch for the tags regular expression: the capture of the
leftmost match, scanning attempt positions from the left. -/
def findDefaultTags : List Char → Option (List Char)
  | [] => none
  | s@(_ :: rest) =>
    match matchDTAt s with
    | some cap => some cap
    | none => findDefaultTags rest

/-- The literal alias of the alias regular expression. -/
def aliasLit : List Char := "alias".toList

/-- One attempted match of alias\s*=\s*"([^"]+)" at the current position,
returning the capture group. -/
def matchAliasAt (s : List Char) : Option (List Char) :=
  match matchLit aliasLit s with
  | none => none
  | some s1 =>
    match matchLit ['='] (s1.dropWhile isSpaceGo) with
    | none => none
    | some s2 =>
      match matchLit ['"'] (s2.dropWhile isSpaceGo) with
      | none => none
      | some s3 =>
        match s3.dropWhile (fun c => c != '"') with
        | '"' :: _ =>
          if s3.takeWhile (fun c => c != '"') = [] then none
          else some (s3.takeWhile (fun c => c != '"'))
        | _ => none

/-- FindStringSubmatch for the alias regular expression. -/
def findAlias : List Char → Option (List Char)
  | [] => none
  | s@(_ :: rest) =>
    match matchAliasAt s with
    | some cap => some cap
    | none => findAlias rest

/-- The provider name assembled in checkAllAwsProviders: "aws (default)" or
"aws (alias: NAME)". -/
def awsDefaultName : List Char := "aws (default)".toList

/-- The prefix of an aliased provider name. -/
def aliasHead : List Char := "aws (alias: ".toList

/-- The name a provider block is reported under. -/
def providerNameOf (block : List Char) : List Char :=
  match findAlias block with
  | some a => aliasHead ++ a ++ [')']
  | none => awsDefaultName

/-- The literal provider of the occurrence pattern. -/
def provLit : List Char := "provider".toList

/-- The literal "aws" (with its quotes) of the occurrence pattern. -/
def awsQuoted : List Char := "\"aws\"".toList

/-- One attempted match of provider\s+"aws" at the current position,
returning the remainder after the match. -/
def matchProvAt (s : List Char) : Option (List Char) :=
  match matchLit provLit s with
  | none => none
  | some s1 =>
    match s1 with
    | [] => none
    | c :: r =>
      if isSpaceGo c then matchLit awsQuoted (r.dropWhile isSpaceGo) else none

/-- Fueled scan of FindAllStringIndex for provider\s+"aws": the suffixes of
the input starting at each (non-overlapping, leftmost) match.  The loop body
of checkAllAwsProviders works on content[start:], which is exactly such a
suffix. -/
def findAllProvSuffixesF : Nat → List Char → List (List Char)
  | 0, _ => []
  | fuel + 1, s =>
    match matchProvAt s with
    | some rest => s :: findAllProvSuffixesF fuel rest
    | none =>
      match s with
      | [] => []
      | _ :: r => findAllProvSuffixesF fuel r

/-- The suffixes of the input starting at each occurrence of
provider\s+"aws". -/
def findAllProvSuffixes (s : List Char) : List (List Char) :=
  findAllProvSuffixesF (s.length + 1) s

/-- extractProviderBlock of the source: brace scanning state machine.  On an
opening brace, mark the block started and increment the counter; on a
closing brace, decrement the counter and stop when it reaches zero inside a
started block.  Returns the number of characters through the closing brace,
or none when the scan exhausts the input. -/
def scanClose : List Char → Int → Bool → Option Nat
  | [], _, _ => none
  | c :: rest, braceCount, inBlock =>
    if c = '{' then
      (scanClose rest (braceCount + 1) true).map (· + 1)
    else if c = '}' then
      if braceCount - 1 = 0 ∧ inBlock = true then some 1
      else (scanClose rest (braceCount - 1) inBlock).map (· + 1)
    else
      (scanClose rest braceCount inBlock).map (· + 1)

/-- extractProviderBlock of the source: the prefix through the closing brace
that balances the block, or the whole input when the braces never balance. -/
def extractProviderBlock (content : List Char) : List Char :=
  match scanClose content 0 false with
  | some n => content.take n
  | none => content

/-- requiredTags of the source: the eight mandatory tag names, in order. -/
def requiredTags : List (List Char) :=
  ["business-unit".toList, "application".toList, "is-production".toList,
   "owner".toList, "namespace".toList, "service-area".toList,
   "source-code".toList, "slack-channel".toList]

/-- The membership map findMissingTags builds from the found tags, modelled
as its characteristic function: each found tag is inserted with value true,
lookup of an absent key gives false. -/
def buildTagMap (foundTags : List (List Char)) : List Char → Bool :=
  foundTags.foldl (fun m tag => fun t => if t = tag then true else m t)
    (fun _ => false)

/-- findMissingTags of the source: the required tags, in their fixed order,
whose lookup in the map of found tags fails. -/
def findMissingTags (foundTags : List (List Char)) : List (List Char) :=
  requiredTags.filter (fun required => !(buildTagMap foundTags required))

/-- joinErrors of the source: concatenation with a newline before every
message but the first. -/
def joinErrors : List (List Char) → List Char
  | [] => []
  | e :: rest =>
    e ++ (match rest with
          | [] => []
          | _ :: _ => '\n' :: joinErrors rest)

/-- providerInfo of the source. -/
structure providerInfo : Type where
  name : List Char
  tags : List (List Char)
deriving DecidableEq

/-- The two per-provider error messages produced in checkAllAwsProviders,
modelled structurally: missingTags NAME MISSING stands for the formatted
message Provider NAME is missing tags: MISSING, and noDefaultTags NAME for
the message Provider NAME does not have default_tags block with all required
tags. -/
inductive errMsg : Type
  | missingTags : List Char → List (List Char) → errMsg
  | noDefaultTags : List Char → errMsg
deriving DecidableEq

/-- The two error outcomes of checkAllAwsProviders: the no-providers error
and the compliance error carrying the collected per-provider messages (the
source joins them with joinErrors into one error string). -/
inductive scanError : Type
  | noProviders : scanError
  | compliance : List errMsg → scanError
deriving DecidableEq

/-- One iteration of the provider loop of checkAllAwsProviders on the suffix
content[start:]: the provider record appended to providers (none when the
default_tags pattern is not found) and the error message appended to errors
(none when the provider is compliant). -/
def checkProvider (suffix : List Char) : Option providerInfo × Option errMsg :=
  let providerBlock := extractProviderBlock suffix
  let name := providerNameOf providerBlock
  match findDefaultTags providerBlock with
  | some interior =>
    let tags := extractTags interior
    let missing := findMissingTags tags
    (some ⟨name, tags⟩,
     if missing = [] then none else some (errMsg.missingTags name missing))
  | none => (none, some (errMsg.noDefaultTags name))

/-- checkAllAwsProviders of the source: find every occurrence of
provider\s+"aws", run the loop body on each suffix, fail with noProviders
when there is no occurrence, fail with the collected compliance messages
when any provider is non-compliant, and succeed with the provider records
otherwise. -/
def checkAllAwsProviders (content : List Char) :
    Except scanError (List providerInfo) :=
  let suffixes := findAllProvSuffixes content
  let providers := suffixes.filterMap (fun s => (checkProvider s).1)
  let errors := suffixes.filterMap (fun s => (checkProvider s).2)
  if suffixes = [] then Except.error scanError.noProviders
  else if errors = [] then Except.ok providers
  else Except.error (scanError.compliance errors)

/-- The brace depth contribution of one character. -/
def braceDelta (c : Char) : Int :=
  if c = '{' then 1 else if c = '}' then -1 else 0

/-- The net brace depth of a character list: opening braces minus closing
braces. -/
def netDepth : List Char → Int
  | [] => 0
  | c :: rest => braceDelta c + netDepth rest

/-- Position i of the input is the closing brace of the balanced block: the
character is a closing brace, the depth counter after it is zero, and an
opening brace occurred before it. -/
def isClosingAt (s : List Char) (i : Nat) : Prop :=
  s.get? i = some '}' ∧ netDepth (s.take (i + 1)) = 0 ∧ '{' ∈ s.take i

/-- Generalisation of isClosingAt to a scan started with depth counter d and
block-started flag b. -/
def closingG (d : Int) (b : Bool) (s : List Char) (i : Nat) : Prop :=
  s.get? i = some '}' ∧ d + netDepth (s.take (i + 1)) = 0 ∧
    (b = true ∨ '{' ∈ s.take i)

/-- The lines of a text, splitting at each newline. -/
def splitLines : List Char → List (List Char)
  | [] => [[]]
  | c :: rest =>
    if c = '\n' then [] :: splitLines rest
    else
      match splitLines rest with
      | l :: ls => (c :: l) :: ls
      | [] => [[c]]

/-- Modelled from the spec: the match of one line against the tag pattern.
On a single line (no newline inside), matchTagAt is exactly the line-local
matcher of the spec sentence: if the line matches the anchored pattern,
capture the identifier. -/
def lineTag (l : List Char) : Option (List Char) :=
  (matchTagAt l).map Prod.fst

/-- Modelled from the spec: the per-line reading of the Tag Extractor
algorithm.  For each line, if it matches the anchored pattern, capture the
identifier; non-matching lines are ignored; order is line order; duplicates
are kept. -/
def extractTagsPerLine (s : List Char) : List (List Char) :=
  (splitLines s).filterMap lineTag

/-- A line consisting of whitespace, an optionally quoted identifier and
trailing whitespace, with no equals sign on the line: the only line shape on
which the multi-line scan of the source and the per-line reading of the spec
can disagree, because the whitespace of \s* continues across the newline. -/
def lineHangs (l : List Char) : Bool :=
  match stripQuote (l.dropWhile isSpaceGo) with
  | c :: r =>
    isTagAlpha c &&
      ((stripQuote (r.dropWhile isTagIdent)).dropWhile isSpaceGo).isEmpty
  | [] => false

lemma braceDelta_open : braceDelta '{' = 1 := by decide

lemma braceDelta_close : braceDelta '}' = -1 := by decide

lemma braceDelta_other (c : Char) (h1 : ¬ c = '{') (h2 : ¬ c = '}') :
    braceDelta c = 0 := by
  unfold braceDelta
  rw [if_neg h1, if_neg h2]

lemma closingG_cons (c : Char) (t : List Char) (d : Int) (b : Bool) (i : Nat) :
    closingG d b (c :: t) (i + 1) ↔
      closingG (d + braceDelta c) (if c = '{' then true else b) t i := by
  unfold closingG
  simp only [List.get?_cons_succ, List.take_succ_cons, netDepth, List.mem_cons]
  constructor
  · rintro ⟨h1, h2, h3⟩
    refine ⟨h1, by omega, ?_⟩
    by_cases hc : c = '{'
    · rw [if_pos hc]
      exact Or.inl rfl
    · rw [if_neg hc]
      rcases h3 with hb | hm | hm
      · exact Or.inl hb
      · exact absurd hm.symm hc
      · exact Or.inr hm
  · rintro ⟨h1, h2, h3⟩
    refine ⟨h1, by omega, ?_⟩
    by_cases hc : c = '{'
    · subst hc
      exact Or.inr (Or.inl rfl)
    · rw [if_neg hc] at h3
      rcases h3 with hb | hm
      · exact Or.inl hb
      · exact Or.inr (Or.inr hm)

lemma closingG_zero (c : Char) (t : List Char) (d : Int) (b : Bool) :
    closingG d b (c :: t) 0 ↔ (c = '}' ∧ d - 1 = 0 ∧ b = true) := by
  unfold closingG
  simp only [List.take_succ_cons, List.take_zero, netDepth, List.not_mem_nil,
    or_false, List.get?_cons_zero, Option.some.injEq, add_zero]
  constructor
  · rintro ⟨h1, h2, h3⟩
    subst h1
    rw [braceDelta_close] at h2
    exact ⟨rfl, by omega, h3⟩
  · rintro ⟨h1, h2, h3⟩
    subst h1
    rw [braceDelta_close]
    exact ⟨rfl, by omega, h3⟩

lemma scanClose_eq_none :
    ∀ (s : List Char) (d : Int) (b : Bool),
      (∀ i, ¬ closingG d b s i) → scanClose s d b = none := by
  intro s
  induction s with
  | nil => intro d b _; rfl
  | cons c t ih =>
    intro d b h
    by_cases hc : c = '{'
    · subst hc
      have h' : ∀ i, ¬ closingG (d + 1) true t i := by
        intro i hi
        refine h (i + 1) ((closingG_cons '{' t d b i).mpr ?_)
        rw [braceDelta_open, if_pos rfl]
        exact hi
      simp only [scanClose, if_pos rfl]
      rw [ih (d + 1) true h']
      rfl
    · by_cases hc2 : c = '}'
      · subst hc2
        have hne : ¬ (d - 1 = 0 ∧ b = true) := by
          intro hcon
          exact h 0 ((closingG_zero '}' t d b).mpr ⟨rfl, hcon.1, hcon.2⟩)
        have h' : ∀ i, ¬ closingG (d - 1) b t i := by
          intro i hi
          refine h (i + 1) ((closingG_cons '}' t d b i).mpr ?_)
          rw [braceDelta_close, if_neg (by decide : ¬ ('}' : Char) = '{')]
          have e : d + -1 = d - 1 := by omega
          rw [e]
          exact hi
        simp only [scanClose, if_neg hc, if_pos rfl]
        rw [if_neg hne, ih (d - 1) b h']
        rfl
      · have h' : ∀ i, ¬ closingG d b t i := by
          intro i hi
          refine h (i + 1) ((closingG_cons c t d b i).mpr ?_)
          rw [braceDelta_other c hc hc2, if_neg hc, add_zero]
          exact hi
        simp only [scanClose, if_neg hc, if_neg hc2]
        rw [ih d b h']
        rfl

lemma scanClose_eq_some :
    ∀ (s : List Char) (i : Nat) (d : Int) (b : Bool),
      closingG d b s i → (∀ j, j < i → ¬ closingG d b s j) →
      scanClose s d b = some (i + 1) := by
  intro s
  induction s with
  | nil =>
    intro i d b h1 _
    exact absurd h1.1 (by simp)
  | cons c t ih =>
    intro i d b h1 h2
    cases i with
    | zero =>
      obtain ⟨hc, hd, hb⟩ := (closingG_zero c t d b).mp h1
      subst hc
      simp only [scanClose, if_neg (by decide : ¬ ('}' : Char) = '{'),
        if_pos rfl]
      simp [hd, hb]
    | succ i =>
      have h0 := h2 0 (Nat.succ_pos i)
      by_cases hc : c = '{'
      · subst hc
        have h1' : closingG (d + 1) true t i := by
          have hx := (closingG_cons '{' t d b i).mp h1
          rwa [braceDelta_open, if_pos rfl] at hx
        have h2' : ∀ j, j < i → ¬ closingG (d + 1) true t j := by
          intro j hj hcon
          refine h2 (j + 1) (Nat.succ_lt_succ hj)
            ((closingG_cons '{' t d b j).mpr ?_)
          rw [braceDelta_open, if_pos rfl]
          exact hcon
        simp only [scanClose, if_pos rfl]
        rw [ih i (d + 1) true h1' h2']
        rfl
      · by_cases hc2 : c = '}'
        · subst hc2
          have hne : ¬ (d - 1 = 0 ∧ b = true) := by
            intro hcon
            exact h0 ((closingG_zero '}' t d b).mpr ⟨rfl, hcon.1, hcon.2⟩)
          have e : d + -1 = d - 1 := by omega
          have h1' : closingG (d - 1) b t i := by
            have hx := (closingG_cons '}' t d b i).mp h1
            rwa [braceDelta_close,
              if_neg (by decide : ¬ ('}' : Char) = '{'), e] at hx
          have h2' : ∀ j, j < i → ¬ closingG (d - 1) b t j := by
            intro j hj hcon
            refine h2 (j + 1) (Nat.succ_lt_succ hj)
              ((closingG_cons '}' t d b j).mpr ?_)
            rw [braceDelta_close, if_neg (by decide : ¬ ('}' : Char) = '{'), e]
            exact hcon
          simp only [scanClose, if_neg (by decide : ¬ ('}' : Char) = '{'),
            if_pos rfl]
          rw [if_neg hne, ih i (d - 1) b h1' h2']
          rfl
        · have h1' : closingG d b t i := by
            have hx := (closingG_cons c t d b i).mp h1
            rwa [braceDelta_other c hc hc2, if_neg hc, add_zero] at hx
          have h2' : ∀ j, j < i → ¬ closingG d b t j := by
            intro j hj hcon
            refine h2 (j + 1) (Nat.succ_lt_succ hj)
              ((closingG_cons c t d b j).mpr ?_)
            rw [braceDelta_other c hc hc2, if_neg hc, add_zero]
            exact hcon
          simp only [scanClose, if_neg hc, if_neg hc2]
          rw [ih i d b h1' h2']
          rfl

lemma closingG_zero_false (s : List Char) (j : Nat) :
    closingG 0 false s j ↔ isClosingAt s j := by
  unfold closingG isClosingAt
  constructor
  · rintro ⟨h1, h2, h3⟩
    refine ⟨h1, by omega, ?_⟩
    rcases h3 with hb | hm
    · exact absurd hb (by decide)
    · exact hm
  · rintro ⟨h1, h2, h3⟩
    exact ⟨h1, by omega, Or.inr h3⟩

instance decidableIsClosingAt (s : List Char) (i : Nat) :
    Decidable (isClosingAt s i) := by
  unfold isClosingAt
  infer_instance

/-- Claim C1: for every input containing a balanced brace block (braces may
be nested arbitrarily deep), extractProviderBlock returns the prefix of the
input through the closing brace that returns the brace-depth counter to
zero, inclusive; position i is that brace: the first position carrying a
closing brace at which the depth counter reaches zero after an opening brace
has been seen.  In particular the extraction does not stop at an inner
closing brace, where the counter is still positive. -/
theorem extractProviderBlock_closes (s : List Char) (i : Nat)
    (h1 : isClosingAt s i) (h2 : ∀ j, j < i → ¬ isClosingAt s j) :
    extractProviderBlock s = s.take (i + 1) := by
  have hs : scanClose s 0 false = some (i + 1) := by
    refine scanClose_eq_some s i 0 false ((closingG_zero_false s i).mpr h1) ?_
    intro j hj hcon
    exact h2 j hj ((closingG_zero_false s j).mp hcon)
  unfold extractProviderBlock
  rw [hs]

/-- Witness for C1 on an input with braces nested three deep: the balancing
closing brace is at position 9, no earlier position balances (in particular
the inner closing braces at positions 6 and 7 do not), and the extracted
block is the prefix of length 10. -/
theorem extractProviderBlock_closes_witness :
    isClosingAt ['x', '{', 'a', '{', '{', 'b', '}', '}', 'x', '}', 'y'] 9 ∧
      (∀ j, j < 9 →
        ¬ isClosingAt ['x', '{', 'a', '{', '{', 'b', '}', '}', 'x', '}', 'y'] j) ∧
      extractProviderBlock ['x', '{', 'a', '{', '{', 'b', '}', '}', 'x', '}', 'y'] =
        (['x', '{', 'a', '{', '{', 'b', '}', '}', 'x', '}', 'y']).take 10 :=
  ⟨by decide, by decide,
    extractProviderBlock_closes ['x', '{', 'a', '{', '{', 'b', '}', '}', 'x', '}', 'y']
      9 (by decide) (by decide)⟩

/-- Claim C9: on every input whose brace depth never returns to zero at a
closing brace after a block has started (unbalanced or brace-free input),
extractProviderBlock returns the entire input unchanged. -/
theorem extractProviderBlock_fallback (s : List Char)
    (h : ∀ i, i < s.length → ¬ isClosingAt s i) :
    extractProviderBlock s = s := by
  have hs : scanClose s 0 false = none := by
    refine scanClose_eq_none s 0 false ?_
    intro i hcon
    have hc := (closingG_zero_false s i).mp hcon
    have hi : i < s.length := by
      by_contra hge
      have hnone : s.get? i = none :=
        List.get?_eq_none.mpr (Nat.le_of_not_lt hge)
      rw [hc.1] at hnone
      exact Option.noConfusion hnone
    exact h i hi hc
  unfold extractProviderBlock
  rw [hs]

/-- Witness for C9 on an unbalanced input (two opening braces, never
closed): extraction returns the whole input. -/
theorem extractProviderBlock_fallback_witness :
    (∀ i, i < (['a', 'b', '{', 'c', ' ', '{']).length →
      ¬ isClosingAt ['a', 'b', '{', 'c', ' ', '{'] i) ∧
      extractProviderBlock ['a', 'b', '{', 'c', ' ', '{'] =
        ['a', 'b', '{', 'c', ' ', '{'] :=
  ⟨by decide, extractProviderBlock_fallback ['a', 'b', '{', 'c', ' ', '{'] (by decide)⟩

lemma buildTagMap_foldl (l : List (List Char)) :
    ∀ (m : List Char → Bool) (t : List Char),
      (l.foldl (fun m tag => fun t => if t = tag then true else m t) m) t =
        (decide (t ∈ l) || m t) := by
  induction l with
  | nil => intro m t; simp
  | cons a l ih =>
    intro m t
    simp only [List.foldl_cons]
    rw [ih]
    by_cases ht : t = a
    · subst ht
      simp
    · simp [ht]

lemma buildTagMap_eq (found : List (List Char)) (t : List Char) :
    buildTagMap found t = decide (t ∈ found) := by
  unfold buildTagMap
  rw [buildTagMap_foldl]
  simp

/-- Claim C4: findMissingTags returns exactly those of the eight required
tags that are not present in the found list, in the order of the required
list, presence being exact equality of character sequences (no
normalisation: two tags are the same exactly when they are the same list of
characters). -/
theorem findMissingTags_spec (foundTags : List (List Char)) :
    findMissingTags foundTags =
      requiredTags.filter (fun r => decide (r ∉ foundTags)) ∧
    ∀ t, t ∈ findMissingTags foundTags ↔ (t ∈ requiredTags ∧ t ∉ foundTags) := by
  have hfil : findMissingTags foundTags =
      requiredTags.filter (fun r => decide (r ∉ foundTags)) := by
    unfold findMissingTags
    refine List.filter_congr ?_
    intro r _
    rw [buildTagMap_eq]
    simp
  refine ⟨hfil, ?_⟩
  intro t
  rw [hfil]
  simp [List.mem_filter]

lemma findAllProvSuffixesF_eq_nil :
    ∀ (fuel : Nat) (s : List Char),
      (∀ i, i ≤ s.length → matchProvAt (s.drop i) = none) →
      findAllProvSuffixesF fuel s = [] := by
  intro fuel
  induction fuel with
  | zero => intro s _; rfl
  | succ fuel ih =>
    intro s h
    have h0 : matchProvAt s = none := by simpa using h 0 (Nat.zero_le _)
    cases s with
    | nil => simp [findAllProvSuffixesF, h0]
    | cons c r =>
      simp only [findAllProvSuffixesF, h0]
      exact ih r (fun i hi => by simpa using h (i + 1) (by simpa using hi))

/-- Claim C6: on every content with zero occurrences of the provider
pattern (no suffix of the content matches provider\s+"aws"),
checkAllAwsProviders returns the no-AWS-providers-found error, never an
empty success. -/
theorem checkAll_no_providers (content : List Char)
    (h : ∀ i, i ≤ content.length → matchProvAt (content.drop i) = none) :
    checkAllAwsProviders content = Except.error scanError.noProviders := by
  have hnil : findAllProvSuffixes content = [] :=
    findAllProvSuffixesF_eq_nil _ content h
  simp [checkAllAwsProviders, hnil]

/-- Witness for C6: a content without any provider occurrence. -/
theorem checkAll_no_providers_witness :
    (∀ i, i ≤ ("hello".toList).length →
      matchProvAt (("hello".toList).drop i) = none) ∧
      checkAllAwsProviders "hello".toList = Except.error scanError.noProviders :=
  ⟨by decide, checkAll_no_providers ("hello".toList) (by decide)⟩

/-- The single-line input of claim C2 (braces written as \x7b and \x7d). -/
def c2SingleLine : List Char :=
  ("provider \"aws\" \x7b default_tags \x7b tags = \x7b business-unit = \"x\" application = \"y\" is-production = \"true\" owner = \"z\" namespace = \"ns\" service-area = \"a\" source-code = \"url\" slack-channel = \"#c\" \x7d \x7d \x7d").toList

/-- The same provider block with every tag on its own line. -/
def c2MultiLine : List Char :=
  ("provider \"aws\" \x7b\n  default_tags \x7b\n    tags = \x7b\n      business-unit = \"x\"\n      application = \"y\"\n      is-production = \"true\"\n      owner = \"z\"\n      namespace = \"ns\"\n      service-area = \"a\"\n      source-code = \"url\"\n      slack-channel = \"#c\"\n    \x7d\n  \x7d\n\x7d").toList

/-- Counterexample to claim C2: on the single-line input of the claim,
checkAllAwsProviders does not succeed.  The tag pattern is anchored at line
starts ((?m)^...), so on a one-line tags map only the first key,
business-unit, is captured, and the provider is reported missing the other
seven required tags. -/
theorem checkAll_single_line_fails :
    checkAllAwsProviders c2SingleLine =
      Except.error (scanError.compliance
        [errMsg.missingTags awsDefaultName (requiredTags.drop 1)]) := rfl

/-- Claim C2 as amended: for the same provider block with each tag on its
own line, checkAllAwsProviders succeeds, returning exactly one provider
named aws (default) whose tag list has the eight required entries, with no
missing tags. -/
theorem checkAll_multiline_ok :
    checkAllAwsProviders c2MultiLine =
      Except.ok [⟨awsDefaultName, requiredTags⟩] ∧
    requiredTags.length = 8 ∧ findMissingTags requiredTags = [] :=
  ⟨rfl, rfl, rfl⟩

/-- Claim C5: for every content and every discovered provider occurrence
whose extracted block does not contain a match of the default_tags pattern,
the scan fails, and the collected error messages contain the
does-not-have-default_tags message for that provider (the representation in
the source of a provider missing all required tags, printed as: does not
have default_tags block with all required tags). -/
theorem checkAll_reports_no_default_tags (content suffix : List Char)
    (hm : suffix ∈ findAllProvSuffixes content)
    (hd : findDefaultTags (extractProviderBlock suffix) = none) :
    checkAllAwsProviders content =
      Except.error (scanError.compliance
        ((findAllProvSuffixes content).filterMap (fun s => (checkProvider s).2))) ∧
    errMsg.noDefaultTags (providerNameOf (extractProviderBlock suffix)) ∈
      (findAllProvSuffixes content).filterMap (fun s => (checkProvider s).2) := by
  have h2 : (checkProvider suffix).2 =
      some (errMsg.noDefaultTags (providerNameOf (extractProviderBlock suffix))) := by
    simp [checkProvider, hd]
  have hmem : errMsg.noDefaultTags (providerNameOf (extractProviderBlock suffix)) ∈
      (findAllProvSuffixes content).filterMap (fun s => (checkProvider s).2) :=
    List.mem_filterMap.mpr ⟨suffix, hm, h2⟩
  have hene : (findAllProvSuffixes content).filterMap
      (fun s => (checkProvider s).2) ≠ [] :=
    List.ne_nil_of_mem hmem
  have hsne : findAllProvSuffixes content ≠ [] := List.ne_nil_of_mem hm
  refine ⟨?_, hmem⟩
  simp only [checkAllAwsProviders]
  rw [if_neg hsne, if_neg hene]

/-- A provider block without a default_tags block, for the C5 witness. -/
def c5Content : List Char :=
  ("provider \"aws\" \x7b region = \"x\" \x7d").toList

/-- Witness for C5: a provider without default_tags is reported with the
does-not-have-default_tags message. -/
theorem checkAll_reports_no_default_tags_witness :
    c5Content ∈ findAllProvSuffixes c5Content ∧
    findDefaultTags (extractProviderBlock c5Content) = none ∧
    checkAllAwsProviders c5Content =
      Except.error (scanError.compliance [errMsg.noDefaultTags awsDefaultName]) :=
  ⟨by decide, by decide,
    (checkAll_reports_no_default_tags c5Content c5Content (by decide) (by decide)).1⟩

/-- Claim C7: whenever checkAllAwsProviders succeeds, every returned
provider record has an empty missing-tag list relative to the required
tags. -/
theorem checkAll_success_invariant (content : List Char)
    (provs : List providerInfo)
    (h : checkAllAwsProviders content = Except.ok provs) :
    ∀ p ∈ provs, findMissingTags p.tags = [] := by
  intro p hp
  by_cases hsnil : findAllProvSuffixes content = []
  · simp [checkAllAwsProviders, hsnil] at h
  · by_cases henil : (findAllProvSuffixes content).filterMap
        (fun s => (checkProvider s).2) = []
    · have hprov : (findAllProvSuffixes content).filterMap
          (fun s => (checkProvider s).1) = provs := by
        simp only [checkAllAwsProviders] at h
        rw [if_neg hsnil, if_pos henil] at h
        exact Except.ok.inj h
      rw [← hprov] at hp
      obtain ⟨suffix, hsm, hcp⟩ := List.mem_filterMap.mp hp
      have h2 : (checkProvider suffix).2 = none :=
        (List.filterMap_eq_nil_iff.mp henil) suffix hsm
      cases hfd : findDefaultTags (extractProviderBlock suffix) with
      | none => simp [checkProvider, hfd] at hcp
      | some interior =>
        simp only [checkProvider, hfd] at hcp h2
        by_cases hmiss : findMissingTags (extractTags interior) = []
        · have hpe : p = ⟨providerNameOf (extractProviderBlock suffix),
              extractTags interior⟩ := (Option.some.inj hcp).symm
          rw [hpe]
          exact hmiss
        · rw [if_neg hmiss] at h2
          exact Option.noConfusion h2
    · simp only [checkAllAwsProviders] at h
      rw [if_neg hsnil, if_neg henil] at h
      exact Except.noConfusion h

/-- Witness for C7: the compliant multi-line content succeeds and its single
provider record indeed has no missing tags. -/
theorem checkAll_success_invariant_witness :
    findMissingTags (providerInfo.tags ⟨awsDefaultName, requiredTags⟩) = [] :=
  checkAll_success_invariant c2MultiLine [⟨awsDefaultName, requiredTags⟩] rfl
    ⟨awsDefaultName, requiredTags⟩ (List.mem_singleton.mpr rfl)

/-- Claim C8: whenever checkAllAwsProviders fails with a compliance error,
the reported message list is exactly the per-provider message list collected
over all discovered providers (one message per non-compliant provider, in
discovery order), and in particular every non-compliant provider
contributes its message — a compliant provider earlier in the file does not
suppress later providers. -/
theorem checkAll_reports_every_provider (content : List Char)
    (msgs : List errMsg)
    (h : checkAllAwsProviders content =
      Except.error (scanError.compliance msgs)) :
    msgs = (findAllProvSuffixes content).filterMap
      (fun s => (checkProvider s).2) ∧
    ∀ suffix ∈ findAllProvSuffixes content, ∀ m,
      (checkProvider suffix).2 = some m → m ∈ msgs := by
  by_cases hsnil : findAllProvSuffixes content = []
  · simp [checkAllAwsProviders, hsnil] at h
  · by_cases henil : (findAllProvSuffixes content).filterMap
        (fun s => (checkProvider s).2) = []
    · simp only [checkAllAwsProviders] at h
      rw [if_neg hsnil, if_pos henil] at h
      exact Except.noConfusion h
    · simp only [checkAllAwsProviders] at h
      rw [if_neg hsnil, if_neg henil] at h
      have hmsgs : msgs = (findAllProvSuffixes content).filterMap
          (fun s => (checkProvider s).2) :=
        (scanError.compliance.inj (Except.error.inj h)).symm
      refine ⟨hmsgs, ?_⟩
      intro suffix hsm m hmm
      rw [hmsgs]
      exact List.mem_filterMap.mpr ⟨suffix, hsm, hmm⟩

/-- Two providers: the first compliant, the second (aliased, without
default_tags) not, for the C8 witness. -/
def c8Content : List Char :=
  c2MultiLine ++ ('\n' :: ("provider \"aws\" \x7b\n  alias = \"replica\"\n\x7d").toList)

/-- Witness for C8: with a compliant first provider and a non-compliant
second one, the error carries exactly the message of the second provider:
the compliant provider does not suppress it. -/
theorem checkAll_reports_every_provider_witness :
    checkAllAwsProviders c8Content =
      Except.error (scanError.compliance
        [errMsg.noDefaultTags ("aws (alias: replica)".toList)]) ∧
    [errMsg.noDefaultTags ("aws (alias: replica)".toList)] =
      (findAllProvSuffixes c8Content).filterMap (fun s => (checkProvider s).2) :=
  ⟨rfl,
    (checkAll_reports_every_provider c8Content
      [errMsg.noDefaultTags ("aws (alias: replica)".toList)] rfl).1⟩

lemma matchLit_self_append (p : List Char) :
    ∀ x, matchLit p (p ++ x) = some x := by
  induction p with
  | nil => intro x; rfl
  | cons c t ih => intro x; simp [matchLit, ih]

lemma matchLit_single (c : Char) (x : List Char) :
    matchLit [c] (c :: x) = some x := by
  simp [matchLit]

lemma dropWhile_append_all (p : Char → Bool) (a x : List Char)
    (h : ∀ c ∈ a, p c = true) :
    List.dropWhile p (a ++ x) = List.dropWhile p x := by
  induction a with
  | nil => rfl
  | cons c t ih =>
    have hc : p c = true := h c (by simp)
    simp only [List.cons_append, List.dropWhile_cons, hc, if_true]
    exact ih (fun d hd => h d (by simp [hd]))

lemma dropWhile_not_head (p : Char → Bool) (c : Char) (x : List Char)
    (h : p c = false) :
    List.dropWhile p (c :: x) = c :: x := by
  simp [List.dropWhile_cons, h]

lemma dropWhile_ws_tags (z : List Char) :
    List.dropWhile isSpaceGo (tagsLit ++ z) = tagsLit ++ z := by
  show List.dropWhile isSpaceGo ('t' :: ("ags".toList ++ z)) =
    't' :: ("ags".toList ++ z)
  exact dropWhile_not_head isSpaceGo 't' _ (by decide)

/-- The provider block with an empty tags map, for claim C10. -/
def c10Content : List Char :=
  ("provider \"aws\" \x7b default_tags \x7b tags = \x7b\x7d \x7d \x7d").toList

/-- Claim C10: the default_tags pattern never matches an occurrence whose
inner tags map is empty (no characters between the inner braces, whatever
whitespace surrounds the block punctuation), because the interior capture
requires at least one non-brace character; consequently a provider whose
default_tags contains tags = with empty braces is reported through the
does-not-have-default_tags error path, not as a provider with an empty tag
list. -/
theorem checkAll_empty_tags_map
    (w1 w2 w3 w4 rest : List Char)
    (h1 : ∀ c ∈ w1, isSpaceGo c = true) (h2 : ∀ c ∈ w2, isSpaceGo c = true)
    (h3 : ∀ c ∈ w3, isSpaceGo c = true) (h4 : ∀ c ∈ w4, isSpaceGo c = true) :
    matchDTAt (dtLit ++ (w1 ++ ('{' ::
      (w2 ++ (tagsLit ++ (w3 ++ ('=' :: (w4 ++ ('{' :: '}' :: rest))))))))) =
      none ∧
    checkAllAwsProviders c10Content =
      Except.error (scanError.compliance [errMsg.noDefaultTags awsDefaultName]) := by
  refine ⟨?_, rfl⟩
  unfold matchDTAt
  rw [matchLit_self_append]
  simp only [dropWhile_append_all isSpaceGo w1 _ h1,
    dropWhile_append_all isSpaceGo w2 _ h2,
    dropWhile_append_all isSpaceGo w3 _ h3,
    dropWhile_append_all isSpaceGo w4 _ h4,
    dropWhile_not_head isSpaceGo '{' _ (by decide),
    dropWhile_not_head isSpaceGo '=' _ (by decide),
    dropWhile_ws_tags, matchLit_single, matchLit_self_append]
  simp [List.dropWhile_cons, List.takeWhile_cons]

/-- Witness for C10: single spaces around the punctuation, empty trailing
text. -/
theorem checkAll_empty_tags_map_witness :
    matchDTAt (dtLit ++ ([' '] ++ ('{' ::
      ([' '] ++ (tagsLit ++ ([' '] ++ ('=' ::
        ([' '] ++ ('{' :: '}' :: ([] : List Char)))))))))) = none ∧
    checkAllAwsProviders c10Content =
      Except.error (scanError.compliance [errMsg.noDefaultTags awsDefaultName]) :=
  checkAll_empty_tags_map [' '] [' '] [' '] [' '] []
    (by decide) (by decide) (by decide) (by decide)

lemma stripQuote_nil_inv (a : List Char) (ha : a ≠ []) (h : stripQuote a = []) :
    a = ['"'] := by
  cases a with
  | nil => exact absurd rfl ha
  | cons c r =>
    by_cases hc : c = '"'
    · subst hc
      simp [stripQuote] at h
      rw [h]
    · simp only [stripQuote, if_neg hc] at h
      exact absurd h (by simp)

lemma stripQuote_append_pos (a x : List Char) (ha : a ≠ []) :
    stripQuote (a ++ x) = stripQuote a ++ x := by
  cases a with
  | nil => exact absurd rfl ha
  | cons c r =>
    by_cases hc : c = '"'
    · subst hc
      simp [stripQuote]
    · simp [stripQuote, hc]

lemma stripQuote_sublist (a : List Char) : (stripQuote a).Sublist a := by
  cases a with
  | nil => simp [stripQuote]
  | cons c r =>
    by_cases hc : c = '"'
    · subst hc
      simp only [stripQuote, if_pos rfl]
      exact List.sublist_cons_self '"' r
    · simp [stripQuote, hc]

lemma dropWhile_append_pos (p : Char → Bool) (a x : List Char)
    (h : a.dropWhile p ≠ []) :
    (a ++ x).dropWhile p = a.dropWhile p ++ x := by
  rw [List.dropWhile_append]
  simp only [List.isEmpty_iff]
  rw [if_neg h]

lemma dropWhile_append_nil (p : Char → Bool) (a x : List Char)
    (h : a.dropWhile p = []) :
    (a ++ x).dropWhile p = x.dropWhile p := by
  rw [List.dropWhile_append]
  simp only [List.isEmpty_iff]
  rw [if_pos h]

lemma takeWhile_append_pos (p : Char → Bool) :
    ∀ (a x : List Char), a.dropWhile p ≠ [] →
      (a ++ x).takeWhile p = a.takeWhile p := by
  intro a
  induction a with
  | nil => intro x h; exact absurd rfl h
  | cons c t ih =>
    intro x h
    by_cases hc : p c
    · rw [List.dropWhile_cons, if_pos hc] at h
      rw [List.cons_append, List.takeWhile_cons, if_pos hc,
        List.takeWhile_cons, if_pos hc, ih x h]
    · have hc' : ¬ (p c = true) := hc
      rw [List.cons_append, List.takeWhile_cons, if_neg hc',
        List.takeWhile_cons, if_neg hc']

lemma nextLine_cons_ne (c : Char) (r : List Char) (hc : ¬ c = '\n') :
    nextLine (c :: r) = nextLine r := by
  simp only [nextLine, if_neg hc]

lemma nextLine_eq_none (l : List Char) (h : '\n' ∉ l) : nextLine l = none := by
  induction l with
  | nil => rfl
  | cons c t ih =>
    have hc : ¬ c = '\n' := fun he => h (by simp [he])
    rw [nextLine_cons_ne c t hc]
    exact ih (fun hm => h (List.mem_cons_of_mem c hm))

lemma nextLine_append (l rest : List Char) (h : '\n' ∉ l) :
    nextLine (l ++ '\n' :: rest) = some rest := by
  induction l with
  | nil => simp [nextLine]
  | cons c t ih =>
    have hc : ¬ c = '\n' := fun he => h (by simp [he])
    rw [List.cons_append, nextLine_cons_ne c _ hc]
    exact ih (fun hm => h (List.mem_cons_of_mem c hm))

lemma nextLine_some_length :
    ∀ (s r : List Char), nextLine s = some r → r.length < s.length := by
  intro s
  induction s with
  | nil => intro r h; exact Option.noConfusion h
  | cons c t ih =>
    intro r h
    by_cases hc : c = '\n'
    · subst hc
      simp [nextLine] at h
      subst h
      simp
    · rw [nextLine_cons_ne c t hc] at h
      have := ih r h
      simp only [List.length_cons]
      omega

lemma matchAfterWs_some_inv (a : List Char) (cap t : List Char)
    (h : matchAfterWs a = some (cap, t)) :
    ∃ c r, stripQuote a = c :: r ∧ isTagAlpha c = true ∧
      (stripQuote (r.dropWhile isTagIdent)).dropWhile isSpaceGo = '=' :: t ∧
      cap = c :: r.takeWhile isTagIdent := by
  unfold matchAfterWs at h
  split at h
  · exact Option.noConfusion h
  · rename_i c r hsq
    split at h
    · rename_i halpha
      split at h
      · exact Option.noConfusion h
      · rename_i c2 t' hch
        split at h
        · rename_i hc2
          subst hc2
          obtain ⟨h1, h2⟩ := Prod.mk.injEq .. ▸ Option.some.inj h
          exact ⟨c, r, hsq, halpha, by rw [hch, h2], h1.symm⟩
        · exact Option.noConfusion h
    · exact Option.noConfusion h

lemma matchAfterWs_cons (a : List Char) (c : Char) (r : List Char)
    (hsq : stripQuote a = c :: r) :
    matchAfterWs a =
      (if isTagAlpha c then
        match (stripQuote (r.dropWhile isTagIdent)).dropWhile isSpaceGo with
        | [] => none
        | c2 :: t =>
          if c2 = '=' then some (c :: r.takeWhile isTagIdent, t) else none
      else none) := by
  unfold matchAfterWs
  rw [hsq]

lemma matchAfterWs_of_chain (a : List Char) (c : Char) (r : List Char)
    (c2 : Char) (t : List Char)
    (hsq : stripQuote a = c :: r) (halpha : isTagAlpha c = true)
    (hch : (stripQuote (r.dropWhile isTagIdent)).dropWhile isSpaceGo = c2 :: t) :
    matchAfterWs a =
      (if c2 = '=' then some (c :: r.takeWhile isTagIdent, t) else none) := by
  rw [matchAfterWs_cons a c r hsq, if_pos halpha, hch]

lemma matchAfterWs_intro (a : List Char) (c : Char) (r t : List Char)
    (h1 : stripQuote a = c :: r) (h2 : isTagAlpha c = true)
    (h3 : (stripQuote (r.dropWhile isTagIdent)).dropWhile isSpaceGo = '=' :: t) :
    matchAfterWs a = some (c :: r.takeWhile isTagIdent, t) := by
  rw [matchAfterWs_of_chain a c r '=' t h1 h2 h3, if_pos rfl]

lemma matchTagAt_rest_sublist (s cap t : List Char)
    (h : matchTagAt s = some (cap, t)) : t.Sublist s := by
  obtain ⟨c, r, hsq, _, hch, _⟩ := matchAfterWs_some_inv _ cap t h
  have h1 : ('=' :: t).Sublist (stripQuote (r.dropWhile isTagIdent)) := by
    have hx := List.dropWhile_sublist
      (l := stripQuote (r.dropWhile isTagIdent)) isSpaceGo
    rwa [hch] at hx
  have h2 : t.Sublist (r.dropWhile isTagIdent) :=
    ((List.sublist_cons_self '=' t).trans h1).trans (stripQuote_sublist _)
  have h3 : t.Sublist (stripQuote (s.dropWhile isSpaceGo)) := by
    rw [hsq]
    exact (h2.trans (List.dropWhile_sublist _)).trans
      (List.sublist_cons_self c r)
  exact (h3.trans (stripQuote_sublist _)).trans (List.dropWhile_sublist _)

lemma matchTagAt_rest_length (s cap t : List Char)
    (h : matchTagAt s = some (cap, t)) : t.length < s.length := by
  obtain ⟨c, r, hsq, _, hch, _⟩ := matchAfterWs_some_inv _ cap t h
  have h1 : ('=' :: t).length ≤ (stripQuote (r.dropWhile isTagIdent)).length := by
    have hx := (List.dropWhile_sublist
      (l := stripQuote (r.dropWhile isTagIdent)) isSpaceGo).length_le
    rwa [hch] at hx
  have h2 : (stripQuote (r.dropWhile isTagIdent)).length ≤ r.length :=
    ((stripQuote_sublist _).trans (List.dropWhile_sublist _)).length_le
  have h3 : (c :: r).length ≤ s.length := by
    have hx := ((stripQuote_sublist (s.dropWhile isSpaceGo)).trans
      (List.dropWhile_sublist _)).length_le
    rwa [hsq] at hx
  simp only [List.length_cons] at h1 h3
  omega

lemma matchTagAt_append_some (l x cap t : List Char)
    (h : matchTagAt l = some (cap, t)) :
    matchTagAt (l ++ x) = some (cap, t ++ x) := by
  obtain ⟨c, r, hsq, halpha, hch, hcap⟩ := matchAfterWs_some_inv _ cap t h
  have ha : l.dropWhile isSpaceGo ≠ [] := by
    intro hnil
    rw [hnil] at hsq
    exact absurd hsq (by simp [stripQuote])
  have hr2 : r.dropWhile isTagIdent ≠ [] := by
    intro hnil
    rw [hnil] at hch
    simp [stripQuote] at hch
  have hr4 : (stripQuote (r.dropWhile isTagIdent)).dropWhile isSpaceGo ≠ [] := by
    rw [hch]
    simp
  have hsq2 : stripQuote (l.dropWhile isSpaceGo ++ x) = c :: (r ++ x) := by
    rw [stripQuote_append_pos _ _ ha, hsq]
    rfl
  have hch2 : (stripQuote ((r ++ x).dropWhile isTagIdent)).dropWhile isSpaceGo =
      '=' :: (t ++ x) := by
    rw [dropWhile_append_pos _ _ _ hr2, stripQuote_append_pos _ _ hr2,
      dropWhile_append_pos _ _ _ hr4, hch]
    rfl
  have htw : (r ++ x).takeWhile isTagIdent = r.takeWhile isTagIdent :=
    takeWhile_append_pos _ r x hr2
  unfold matchTagAt
  rw [dropWhile_append_pos _ _ _ ha,
    matchAfterWs_intro _ c (r ++ x) (t ++ x) hsq2 halpha hch2, htw, hcap]

lemma matchTagAt_ws_skip (l x : List Char) (hws : l.dropWhile isSpaceGo = []) :
    matchTagAt (l ++ x) = matchTagAt x := by
  unfold matchTagAt
  rw [dropWhile_append_nil _ _ _ hws]

lemma matchTagAt_cons_ws (c : Char) (rest : List Char)
    (hc : isSpaceGo c = true) :
    matchTagAt (c :: rest) = matchTagAt rest := by
  unfold matchTagAt
  rw [List.dropWhile_cons, if_pos hc]

lemma lineHangs_cons (l : List Char) (c : Char) (r : List Char)
    (hsq : stripQuote (l.dropWhile isSpaceGo) = c :: r) :
    lineHangs l = (isTagAlpha c &&
      ((stripQuote (r.dropWhile isTagIdent)).dropWhile isSpaceGo).isEmpty) := by
  unfold lineHangs
  rw [hsq]

lemma lineHangs_of_chain_nil (l : List Char) (c : Char) (r : List Char)
    (hsq : stripQuote (l.dropWhile isSpaceGo) = c :: r)
    (halpha : isTagAlpha c = true)
    (hch : (stripQuote (r.dropWhile isTagIdent)).dropWhile isSpaceGo = []) :
    lineHangs l = true := by
  rw [lineHangs_cons l c r hsq, halpha, hch]
  rfl

lemma matchTagAt_append_none (l rest : List Char)
    (h : matchTagAt l = none) (hws : l.dropWhile isSpaceGo ≠ [])
    (hh : lineHangs l = false) :
    matchTagAt (l ++ '\n' :: rest) = none := by
  unfold matchTagAt
  rw [dropWhile_append_pos _ _ _ hws]
  unfold matchTagAt at h
  cases hsq : stripQuote (l.dropWhile isSpaceGo) with
  | nil =>
    have ha : l.dropWhile isSpaceGo = ['"'] := stripQuote_nil_inv _ hws hsq
    rw [ha]
    have hsq2 : stripQuote (['"'] ++ '\n' :: rest) = '\n' :: rest := by
      simp [stripQuote]
    rw [matchAfterWs_cons _ '\n' rest hsq2,
      if_neg (by decide : ¬ isTagAlpha '\n' = true)]
  | cons c r =>
    have hsq2 : stripQuote (l.dropWhile isSpaceGo ++ '\n' :: rest) =
        c :: (r ++ '\n' :: rest) := by
      rw [stripQuote_append_pos _ _ hws, hsq]
      rfl
    by_cases halpha : isTagAlpha c
    · have hch_ne :
          (stripQuote (r.dropWhile isTagIdent)).dropWhile isSpaceGo ≠ [] := by
        intro hnil
        rw [lineHangs_of_chain_nil l c r hsq halpha hnil] at hh
        exact Bool.noConfusion hh
      obtain ⟨c2, t', hch⟩ : ∃ c2 t',
          (stripQuote (r.dropWhile isTagIdent)).dropWhile isSpaceGo =
            c2 :: t' := by
        cases hx : (stripQuote (r.dropWhile isTagIdent)).dropWhile isSpaceGo with
        | nil => exact absurd hx hch_ne
        | cons c2 t' => exact ⟨c2, t', rfl⟩
      have hc2 : ¬ c2 = '=' := by
        intro he
        subst he
        rw [matchAfterWs_intro _ c r t' hsq halpha hch] at h
        exact Option.noConfusion h
      have hr2 : r.dropWhile isTagIdent ≠ [] := by
        intro hnil
        rw [hnil] at hch
        simp [stripQuote] at hch
      have hch2 :
          (stripQuote ((r ++ '\n' :: rest).dropWhile isTagIdent)).dropWhile
            isSpaceGo = c2 :: (t' ++ '\n' :: rest) := by
        rw [dropWhile_append_pos _ _ _ hr2, stripQuote_append_pos _ _ hr2,
          dropWhile_append_pos _ _ _ (by rw [hch]; simp), hch]
        rfl
      rw [matchAfterWs_of_chain _ c (r ++ '\n' :: rest) c2 (t' ++ '\n' :: rest)
        hsq2 halpha hch2, if_neg hc2]
    · rw [matchAfterWs_cons _ c (r ++ '\n' :: rest) hsq2, if_neg halpha]

lemma findAllTagsF_congr :
    ∀ (f1 f2 : Nat) (s : List Char), s.length < f1 → s.length < f2 →
      findAllTagsF f1 s = findAllTagsF f2 s := by
  intro f1
  induction f1 with
  | zero => intro f2 s h1 _; exact absurd h1 (Nat.not_lt_zero _)
  | succ f1 ih =>
    intro f2 s h1 h2
    cases f2 with
    | zero => exact absurd h2 (Nat.not_lt_zero _)
    | succ f2 =>
      cases hm : matchTagAt s with
      | some ct =>
        obtain ⟨cap, t⟩ := ct
        cases hn : nextLine t with
        | some r =>
          have hts := matchTagAt_rest_length s cap t hm
          have hrt := nextLine_some_length t r hn
          simp only [findAllTagsF, hm, hn]
          rw [ih f2 r (by omega) (by omega)]
        | none => simp only [findAllTagsF, hm, hn]
      | none =>
        cases hn : nextLine s with
        | some r =>
          have hrs := nextLine_some_length s r hn
          simp only [findAllTagsF, hm, hn]
          rw [ih f2 r (by omega) (by omega)]
        | none => simp only [findAllTagsF, hm, hn]

lemma findAllTags_some_step (s cap t r : List Char)
    (hm : matchTagAt s = some (cap, t)) (hn : nextLine t = some r) :
    findAllTags s = cap :: findAllTags r := by
  have h1 := matchTagAt_rest_length s cap t hm
  have h2 := nextLine_some_length t r hn
  show findAllTagsF (s.length + 1) s = cap :: findAllTagsF (r.length + 1) r
  conv_lhs => simp only [findAllTagsF, hm, hn]
  rw [findAllTagsF_congr s.length (r.length + 1) r (by omega) (by omega)]

lemma findAllTags_some_end (s cap t : List Char)
    (hm : matchTagAt s = some (cap, t)) (hn : nextLine t = none) :
    findAllTags s = [cap] := by
  show findAllTagsF (s.length + 1) s = [cap]
  simp only [findAllTagsF, hm, hn]

lemma findAllTags_none_step (s r : List Char)
    (hm : matchTagAt s = none) (hn : nextLine s = some r) :
    findAllTags s = findAllTags r := by
  have h1 := nextLine_some_length s r hn
  show findAllTagsF (s.length + 1) s = findAllTagsF (r.length + 1) r
  conv_lhs => simp only [findAllTagsF, hm, hn]
  exact findAllTagsF_congr s.length (r.length + 1) r (by omega) (by omega)

lemma findAllTags_none_end (s : List Char)
    (hm : matchTagAt s = none) (hn : nextLine s = none) :
    findAllTags s = [] := by
  show findAllTagsF (s.length + 1) s = []
  simp only [findAllTagsF, hm, hn]

lemma splitLines_no_newline (l : List Char) (h : '\n' ∉ l) :
    splitLines l = [l] := by
  induction l with
  | nil => rfl
  | cons c t ih =>
    have hc : ¬ c = '\n' := fun he => h (by simp [he])
    simp only [splitLines, if_neg hc]
    rw [ih (fun hm => h (List.mem_cons_of_mem c hm))]

lemma splitLines_append (l rest : List Char) (h : '\n' ∉ l) :
    splitLines (l ++ '\n' :: rest) = l :: splitLines rest := by
  induction l with
  | nil =>
    show splitLines ('\n' :: rest) = [] :: splitLines rest
    simp [splitLines]
  | cons c t ih =>
    have hc : ¬ c = '\n' := fun he => h (by simp [he])
    show splitLines (c :: (t ++ '\n' :: rest)) = (c :: t) :: splitLines rest
    simp only [splitLines, if_neg hc]
    rw [ih (fun hm => h (List.mem_cons_of_mem c hm))]

lemma exists_line_split (s : List Char) (h : '\n' ∈ s) :
    ∃ l rest, s = l ++ '\n' :: rest ∧ '\n' ∉ l := by
  induction s with
  | nil => simp at h
  | cons c t ih =>
    by_cases hc : c = '\n'
    · subst hc
      exact ⟨[], t, rfl, by simp⟩
    · have hm : '\n' ∈ t := by
        rcases List.mem_cons.mp h with he | hm
        · exact absurd he.symm hc
        · exact hm
      obtain ⟨l, rest, hs, hnl⟩ := ih hm
      refine ⟨c :: l, rest, by rw [List.cons_append, hs], ?_⟩
      intro hmem
      rcases List.mem_cons.mp hmem with he | hm2
      · exact hc he.symm
      · exact hnl hm2

lemma lineTag_of_ws (l : List Char) (h : l.dropWhile isSpaceGo = []) :
    lineTag l = none := by
  unfold lineTag matchTagAt
  rw [h]
  rfl

lemma lineTag_of_some (l cap t : List Char) (h : matchTagAt l = some (cap, t)) :
    lineTag l = some cap := by
  unfold lineTag
  rw [h]
  rfl

lemma lineTag_of_none (l : List Char) (h : matchTagAt l = none) :
    lineTag l = none := by
  unfold lineTag
  rw [h]
  rfl

lemma findAllTags_skip_line (l rest : List Char) (hlnl : '\n' ∉ l)
    (hws : l.dropWhile isSpaceGo = []) :
    findAllTags (l ++ '\n' :: rest) = findAllTags rest := by
  have hmt : matchTagAt (l ++ '\n' :: rest) = matchTagAt rest := by
    rw [matchTagAt_ws_skip l _ hws, matchTagAt_cons_ws '\n' rest (by decide)]
  cases hm : matchTagAt rest with
  | some ct =>
    obtain ⟨cap, t⟩ := ct
    cases hn : nextLine t with
    | some r =>
      rw [findAllTags_some_step (l ++ '\n' :: rest) cap t r (hmt.trans hm) hn,
        findAllTags_some_step rest cap t r hm hn]
    | none =>
      rw [findAllTags_some_end (l ++ '\n' :: rest) cap t (hmt.trans hm) hn,
        findAllTags_some_end rest cap t hm hn]
  | none =>
    rw [findAllTags_none_step (l ++ '\n' :: rest) rest (hmt.trans hm)
      (nextLine_append l rest hlnl)]

lemma findAllTags_eq_perLine_aux :
    ∀ (n : Nat) (s : List Char), s.length ≤ n →
      (∀ l ∈ splitLines s, lineHangs l = false) →
      findAllTags s = extractTagsPerLine s := by
  intro n
  induction n with
  | zero =>
    intro s hlen _
    have hs : s = [] := List.eq_nil_of_length_eq_zero (by omega)
    subst hs
    rw [findAllTags_none_end [] rfl rfl]
    rfl
  | succ n ih =>
    intro s hlen h
    by_cases hnl : '\n' ∈ s
    · obtain ⟨l, rest, hs, hlnl⟩ := exists_line_split s hnl
      subst hs
      have hlines : splitLines (l ++ '\n' :: rest) = l :: splitLines rest :=
        splitLines_append l rest hlnl
      have hlh : lineHangs l = false :=
        h l (by rw [hlines]; exact List.mem_cons_self _ _)
      have hrest : ∀ l2 ∈ splitLines rest, lineHangs l2 = false := fun l2 hl2 =>
        h l2 (by rw [hlines]; exact List.mem_cons_of_mem _ hl2)
      have hlen2 : rest.length ≤ n := by
        rw [List.length_append, List.length_cons] at hlen
        omega
      have ihr := ih rest hlen2 hrest
      unfold extractTagsPerLine
      rw [hlines, List.filterMap_cons]
      by_cases hws : l.dropWhile isSpaceGo = []
      · rw [lineTag_of_ws l hws]
        show findAllTags (l ++ '\n' :: rest) =
          List.filterMap lineTag (splitLines rest)
        rw [findAllTags_skip_line l rest hlnl hws]
        exact ihr
      · cases hlt : matchTagAt l with
        | some ct =>
          obtain ⟨cap, t⟩ := ct
          have hnt : '\n' ∉ t := fun hm =>
            hlnl ((matchTagAt_rest_sublist l cap t hlt).subset hm)
          rw [lineTag_of_some l cap t hlt]
          show findAllTags (l ++ '\n' :: rest) =
            cap :: List.filterMap lineTag (splitLines rest)
          rw [findAllTags_some_step (l ++ '\n' :: rest) cap (t ++ '\n' :: rest)
            rest (matchTagAt_append_some l ('\n' :: rest) cap t hlt)
            (nextLine_append t rest hnt)]
          rw [ihr]
          rfl
        | none =>
          rw [lineTag_of_none l hlt]
          show findAllTags (l ++ '\n' :: rest) =
            List.filterMap lineTag (splitLines rest)
          rw [findAllTags_none_step (l ++ '\n' :: rest) rest
            (matchTagAt_append_none l rest hlt hws hlh)
            (nextLine_append l rest hlnl)]
          exact ihr
    · rw [extractTagsPerLine, splitLines_no_newline s hnl, List.filterMap_cons]
      cases hlt : matchTagAt s with
      | some ct =>
        obtain ⟨cap, t⟩ := ct
        have hnt : '\n' ∉ t := fun hm =>
          hnl ((matchTagAt_rest_sublist s cap t hlt).subset hm)
        rw [lineTag_of_some s cap t hlt]
        show findAllTags s = [cap]
        exact findAllTags_some_end s cap t hlt (nextLine_eq_none t hnt)
      | none =>
        rw [lineTag_of_none s hlt]
        show findAllTags s = []
        exact findAllTags_none_end s hlt (nextLine_eq_none s hnl)

/-- Claim C3 (amended): on every interior text none of whose lines consists
only of whitespace and an optionally quoted identifier with no equals sign
on the same line (no hanging line), extractTags returns exactly the per-line
captures of the anchored tag pattern: one capture per matching line, in line
order, with non-matching lines ignored and duplicates preserved.  On a
hanging line the source and the per-line reading can differ, because the
trailing whitespace of the pattern crosses the newline. -/
theorem extractTags_eq_perLine (s : List Char)
    (h : ∀ l ∈ splitLines s, lineHangs l = false) :
    extractTags s = extractTagsPerLine s :=
  findAllTags_eq_perLine_aux s.length s le_rfl h

/-- Counterexample to claim C3 as stated: on the interior text consisting of
the line foo followed by a line holding only an equals sign, extractTags
captures foo — the whitespace of the pattern crosses the newline to reach
the equals sign on the next line — although no single line matches the
pattern, so the per-line reading of the claim returns nothing. -/
theorem extractTags_not_per_line :
    extractTags ['f', 'o', 'o', '\n', '='] = [['f', 'o', 'o']] ∧
    extractTagsPerLine ['f', 'o', 'o', '\n', '='] = [] := ⟨rfl, rfl⟩

/-- A multi-line interior with a comment line, a quoted key, a duplicate key
and a non-identifier line, for the C3 witness. -/
def c3Witness : List Char :=
  ("# comment\n  business-unit = \"x\"\n  \"owner\" = \"y\"\n  business-unit = \"z\"\n  9bad = \"w\"\n").toList

/-- Witness for C3 (amended): no line of the input hangs, the extraction
equals the per-line captures, quotes are stripped, non-matching lines are
ignored, and the duplicate key is preserved in line order. -/
theorem extractTags_eq_perLine_witness :
    (∀ l ∈ splitLines c3Witness, lineHangs l = false) ∧
    extractTags c3Witness = extractTagsPerLine c3Witness ∧
    extractTags c3Witness =
      ["business-unit".toList, "owner".toList, "business-unit".toList] :=
  ⟨by decide, extractTags_eq_perLine c3Witness (by decide), by decide⟩
